import Mathlib

/-!
Verification development for the realtime denoising stream pipeline
(`streams/webrtc_handler.py`, `streams/views.py`).

The central object is the windowing / overlap-add engine inside
`WebRTCSession.handle_offer`'s `consume` coroutine.  Samples are modelled
as rationals (the source works on float32 PCM in [-1, 1]); audio arrays
are `List ℚ`.  The engine state mirrors the Python local state of
`consume`: the `pending` not-yet-enhanced buffer, the withheld
`prev_tail` of the previously enhanced chunk, and the ordered list of
emitted EnhancedSegments (each segment is simultaneously appended to
`self._recording_frames` and fanned out to the listener queues, so the
`emitted` list is the canonical emission record).

The enhancement model call is abstracted as a function
`enh : List ℚ → List ℚ` (the source treats it as a black box of equal
output length); fallibility of the model call is modelled separately by
an oracle returning `Option` (`none` = the call raised) combined with
the `try/except` fallback wrapper of the source.
-/

/-- Torch-style `linspace`: `torch.linspace(a, b, n)` produces `n` evenly
spaced points from `a` to `b`; for `n = 1` torch returns `[a]`, for
`n = 0` the empty tensor.  Used for the crossfade ramps
`self._ramp_up = torch.linspace(0.0, 1.0, overlap)` and
`self._ramp_down = torch.linspace(1.0, 0.0, overlap)`. -/
def linspace (a b : ℚ) (n : ℕ) : List ℚ :=
  if n ≤ 1 then List.replicate n a
  else (List.range n).map (fun (i : ℕ) => a + (b - a) * (i : ℚ) / ((n : ℚ) - 1))

/-- Crossfade of `webrtc_handler.py` line 206 / 263:
`cf = prev_tail[:, -ov:] * ramp_down + head * ramp_up`, where both ramps
have the length of the head (`ov` samples). -/
def crossfade (tail head : List ℚ) : List ℚ :=
  List.zipWith (· + ·)
    (List.zipWith (· * ·) tail (linspace 1 0 head.length))
    (List.zipWith (· * ·) head (linspace 0 1 head.length))

/-- State of the `consume` loop: `pending` buffer of resampled mono
samples, the withheld `prev_tail` (enhanced), and the EnhancedSegments
emitted so far (appended to `_recording_frames` / listener queues). -/
structure OAState where
  pending : List ℚ
  prevTail : Option (List ℚ)
  emitted : List (List ℚ)
deriving DecidableEq, Repr

def initState : OAState := ⟨[], none, []⟩

/-- Crossfaded head segment of one in-loop window step
(`webrtc_handler.py` lines 201-210): if a previous tail exists and
`ov = min(overlap, len(enhanced)) > 0`, the head of the enhanced chunk
is crossfaded against the previous tail; for the first chunk nothing is
emitted for the head. -/
def cfSegments (V : ℕ) (pt? : Option (List ℚ)) (enhanced : List ℚ) : List (List ℚ) :=
  match pt? with
  | some pt =>
      if 0 < min V enhanced.length then
        [crossfade (pt.drop (pt.length - min V enhanced.length))
          (enhanced.take (min V enhanced.length))]
      else []
  | none => []

/-- Middle (non-overlapped) segment of one in-loop window step
(`webrtc_handler.py` lines 212-215): region from `ov` to
`mid_end = max(ov, total - overlap)`, emitted only when non-empty. -/
def midSegments (V : ℕ) (enhanced : List ℚ) : List (List ℚ) :=
  if min V enhanced.length < max (min V enhanced.length) (enhanced.length - V) then
    [(enhanced.drop (min V enhanced.length)).take
      (max (min V enhanced.length) (enhanced.length - V) - min V enhanced.length)]
  else []

/-- New withheld tail after one in-loop window step
(`webrtc_handler.py` lines 217-218, 222): with overlap, the last `ov`
samples of the enhanced chunk; without overlap, `None`. -/
def nextTail (V : ℕ) (enhanced : List ℚ) : Option (List ℚ) :=
  if 0 < V then
    if 0 < min V enhanced.length then
      some (enhanced.drop (enhanced.length - min V enhanced.length))
    else none
  else none

/-- Segments fanned out by one in-loop window step
(`webrtc_handler.py` lines 194-228).  With overlap: crossfaded head
plus middle region, empty segments skipped (`if seg.numel() == 0`);
without overlap: the whole enhanced chunk. -/
def newSegments (V : ℕ) (pt? : Option (List ℚ)) (enhanced : List ℚ) : List (List ℚ) :=
  if 0 < V then
    (cfSegments V pt? enhanced ++ midSegments V enhanced).filter (fun g => ¬ g = [])
  else [enhanced].filter (fun g => ¬ g = [])

/-- One full-chunk step of the `while pending >= chunk_frames` loop
(`webrtc_handler.py` lines 177-238): slice the first `chunk` samples,
advance `pending` by `chunk - overlap` (by the full `chunk` when
overlap is zero), enhance, and emit the overlap-add segments. -/
def processChunk (C V : ℕ) (enh : List ℚ → List ℚ) (s : OAState) : OAState :=
  { pending := if 0 < V then s.pending.drop (C - V) else s.pending.drop C,
    prevTail := nextTail V (enh (s.pending.take C)),
    emitted := s.emitted ++ newSegments V s.prevTail (enh (s.pending.take C)) }

/-- The chunk loop, fuel-indexed for structural recursion; the guard is
`pending >= chunk_frames` (conjoined with `overlap < chunk`, which the
source guarantees by configuration: 0.5 s overlap vs 0.5-4 s chunks;
one unit of fuel per extracted chunk always suffices because every
iteration consumes at least one sample). -/
def chunkLoop (C V : ℕ) (enh : List ℚ → List ℚ) : ℕ → OAState → OAState
  | 0, s => s
  | n+1, s =>
      if C ≤ s.pending.length ∧ V < C then
        chunkLoop C V enh n (processChunk C V enh s)
      else s

/-- Ingesting one resampled mono block in the denoised path
(`webrtc_handler.py` line 174 then lines 177-238): append to `pending`,
then extract as many full chunks as possible. -/
def ingestBlock (C V : ℕ) (enh : List ℚ → List ℚ) (s : OAState) (b : List ℚ) : OAState :=
  chunkLoop C V enh (s.pending ++ b).length
    { s with pending := s.pending ++ b }

/-- Head part of the terminal flush (`webrtc_handler.py` lines 259-271):
crossfade the previous tail against the flush window's head and emit the
remainder, or, with no previous tail, emit the whole enhanced window. -/
def flushHeadSegments (V : ℕ) (pt? : Option (List ℚ)) (enhanced : List ℚ) : List (List ℚ) :=
  match pt? with
  | some pt =>
      if 0 < min V enhanced.length then
        [crossfade (pt.drop (pt.length - min V enhanced.length))
          (enhanced.take (min V enhanced.length))] ++
        (if ¬ enhanced.drop (min V enhanced.length) = []
          then [enhanced.drop (min V enhanced.length)] else [])
      else [enhanced]
  | none => [enhanced]

/-- Tail part of the terminal flush (`webrtc_handler.py` lines 272-275):
"Also output the final tail since stream ends". -/
def flushTailSegments (V : ℕ) (enhanced : List ℚ) : List (List ℚ) :=
  if 0 < min V enhanced.length then
    [enhanced.drop (enhanced.length - min V enhanced.length)]
  else []

/-- Terminal flush of the `consume` coroutine
(`webrtc_handler.py` lines 243-277): if `pending` holds leftover
samples, enhance them as one final window and emit crossfade head,
remainder and final tail (with overlap), or the whole window
(without overlap). -/
def flushState (V : ℕ) (enh : List ℚ → List ℚ) (s : OAState) : OAState :=
  if s.pending = [] then s
  else if 0 < V ∧ ¬ enh s.pending = [] then
    { s with emitted := s.emitted ++
        flushHeadSegments V s.prevTail (enh s.pending) ++
        flushTailSegments V (enh s.pending) }
  else { s with emitted := s.emitted ++ [enh s.pending] }

/-- One ingested block at session level (`webrtc_handler.py` lines
161-238): in passthrough mode (global passthrough flag or denoise
disabled) the block is emitted directly, bypassing chunking; otherwise
it goes through the windowing engine. -/
def sessionStep (passthrough : Bool) (C V : ℕ) (enh : List ℚ → List ℚ)
    (s : OAState) (b : List ℚ) : OAState :=
  if passthrough then { s with emitted := s.emitted ++ [b] }
  else ingestBlock C V enh s b

/-- A whole session run of the `consume` coroutine over a sequence of
ingested mono blocks, ending with the terminal flush. -/
def runSession (passthrough : Bool) (C V : ℕ) (enh : List ℚ → List ℚ)
    (blocks : List (List ℚ)) : OAState :=
  flushState V enh (blocks.foldl (sessionStep passthrough C V enh) initState)

/-- A denoised-path (non-passthrough) session run. -/
def runEngine (C V : ℕ) (enh : List ℚ → List ℚ) (blocks : List (List ℚ)) : OAState :=
  runSession false C V enh blocks

/-- Sum of the lengths of a list of sample arrays. -/
def sumLen (L : List (List ℚ)) : ℕ := (L.map List.length).sum

/-- Total number of emitted samples of a run. -/
def emittedTotal (s : OAState) : ℕ := sumLen s.emitted

/-- The `try: enhance(...) except: raw` wrapper of `webrtc_handler.py`
lines 185-192 and 247-254 (and `AudioProcessor._denoise_chunk`): the
model invocation is an oracle `E`, with `E w = none` meaning the call
raised; a failed call falls back to the original un-enhanced window. -/
def enhanceWithFallback (E : List ℚ → Option (List ℚ)) (w : List ℚ) : List ℚ :=
  match E w with
  | some e => e
  | none => w

/-- Withheld-tail length of a state (`0` when no tail is withheld). -/
def tailLen (s : OAState) : ℕ :=
  match s.prevTail with
  | some pt => pt.length
  | none => 0

/-- Conservation invariant of the overlap-add engine in the regime
`0 < overlap` and `2 * overlap ≤ chunk`: emitted samples plus buffered
samples plus the withheld tail account for every ingested sample; the
withheld tail always has exactly `overlap` samples and the buffer
retains at least `overlap` samples once a chunk has been processed;
before the first chunk the buffer holds the whole input. -/
def engineInv (V T : ℕ) (s : OAState) : Prop :=
  emittedTotal s + s.pending.length + tailLen s = T ∧
  (∀ pt, s.prevTail = some pt → pt.length = V ∧ V ≤ s.pending.length) ∧
  (s.prevTail = none → s.pending.length = T)

theorem sumLen_nil : sumLen [] = 0 := rfl

theorem sumLen_cons (x : List ℚ) (L : List (List ℚ)) :
    sumLen (x :: L) = x.length + sumLen L := by
  simp [sumLen]

theorem sumLen_append (L M : List (List ℚ)) :
    sumLen (L ++ M) = sumLen L + sumLen M := by
  simp [sumLen]

theorem sumLen_eq_length_flatten (L : List (List ℚ)) :
    sumLen L = L.flatten.length := by
  simp [sumLen, List.length_flatten]

theorem linspace_length (a b : ℚ) (n : ℕ) : (linspace a b n).length = n := by
  unfold linspace
  split
  · rw [List.length_replicate]
  · rw [List.length_map, List.length_range]

theorem crossfade_length (tail head : List ℚ) :
    (crossfade tail head).length = min tail.length head.length := by
  simp [crossfade, linspace_length]

theorem emittedTotal_processChunk (C V : ℕ) (enh : List ℚ → List ℚ) (s : OAState) :
    emittedTotal (processChunk C V enh s) =
      emittedTotal s + sumLen (newSegments V s.prevTail (enh (s.pending.take C))) := by
  simp [processChunk, emittedTotal, sumLen_append]

theorem sumLen_filter_ne_nil (L : List (List ℚ)) :
    sumLen (L.filter (fun g => ¬ g = [])) = sumLen L := by
  induction L with
  | nil => rfl
  | cons x xs ih =>
    simp only [decide_not] at ih ⊢
    rw [List.filter_cons]
    by_cases hx : x = []
    · simp [hx, ih, sumLen_cons]
    · simp [hx, ih, sumLen_cons]

theorem cfSegments_some (V : ℕ) (pt enhanced : List ℚ) :
    cfSegments V (some pt) enhanced =
      if 0 < min V enhanced.length then
        [crossfade (pt.drop (pt.length - min V enhanced.length))
          (enhanced.take (min V enhanced.length))]
      else [] := rfl

theorem cfSegments_none (V : ℕ) (enhanced : List ℚ) :
    cfSegments V none enhanced = [] := rfl

theorem sumLen_newSegments_some (C V : ℕ) (enhanced pt : List ℚ)
    (hV : 0 < V) (h2 : 2 * V ≤ C) (henh : enhanced.length = C) (hpt : pt.length = V) :
    sumLen (newSegments V (some pt) enhanced) = C - V := by
  have hov : min V enhanced.length = V := by omega
  have hdrop : (pt.drop (pt.length - V)).length = V := by
    rw [List.length_drop]; omega
  have htake : (enhanced.take V).length = V := by
    rw [List.length_take]; omega
  unfold newSegments midSegments
  rw [if_pos hV, sumLen_filter_ne_nil, cfSegments_some, hov, if_pos hV]
  by_cases hmid : V < max V (enhanced.length - V)
  · rw [if_pos hmid, sumLen_append, sumLen_cons, sumLen_nil, sumLen_cons, sumLen_nil,
      crossfade_length, hdrop, htake, List.length_take, List.length_drop]
    omega
  · rw [if_neg hmid, sumLen_append, sumLen_cons, sumLen_nil,
      crossfade_length, hdrop, htake]
    omega

theorem sumLen_newSegments_none (C V : ℕ) (enhanced : List ℚ)
    (hV : 0 < V) (h2 : 2 * V ≤ C) (henh : enhanced.length = C) :
    sumLen (newSegments V none enhanced) = C - 2 * V := by
  have hov : min V enhanced.length = V := by omega
  unfold newSegments midSegments
  rw [if_pos hV, sumLen_filter_ne_nil, cfSegments_none, hov]
  by_cases hmid : V < max V (enhanced.length - V)
  · rw [if_pos hmid]
    simp only [List.nil_append, sumLen_cons, sumLen_nil, List.length_take, List.length_drop]
    omega
  · rw [if_neg hmid]
    simp only [List.nil_append, sumLen_nil]
    omega

theorem nextTail_length (V : ℕ) (enhanced : List ℚ)
    (hV : 0 < V) (hlen : V ≤ enhanced.length) :
    nextTail V enhanced = some (enhanced.drop (enhanced.length - V)) ∧
      (enhanced.drop (enhanced.length - V)).length = V := by
  have hov : min V enhanced.length = V := by omega
  constructor
  · unfold nextTail
    rw [if_pos hV, hov, if_pos hV]
  · rw [List.length_drop]; omega

theorem processChunk_inv (C V T : ℕ) (enh : List ℚ → List ℚ) (s : OAState)
    (hV : 0 < V) (h2 : 2 * V ≤ C)
    (hpres : ∀ x, (enh x).length = x.length)
    (hC : C ≤ s.pending.length)
    (hinv : engineInv V T s) :
    engineInv V T (processChunk C V enh s) := by
  obtain ⟨hsum, hsome, hnone⟩ := hinv
  have htake : (s.pending.take C).length = C := by
    rw [List.length_take]; omega
  have henh : (enh (s.pending.take C)).length = C := by
    rw [hpres, htake]
  have hVC : V ≤ C := by omega
  have hpend : (processChunk C V enh s).pending = s.pending.drop (C - V) := by
    simp [processChunk, if_pos hV]
  have hpendlen : (processChunk C V enh s).pending.length = s.pending.length - (C - V) := by
    rw [hpend, List.length_drop]
  have htail := nextTail_length V (enh (s.pending.take C)) hV (by omega)
  have hptail : (processChunk C V enh s).prevTail =
      some ((enh (s.pending.take C)).drop ((enh (s.pending.take C)).length - V)) := by
    simp [processChunk, htail.1]
  have htlnew : tailLen (processChunk C V enh s) = V := by
    simp [tailLen, hptail, htail.2]
  refine ⟨?_, ?_, ?_⟩
  · rw [emittedTotal_processChunk, hpendlen, htlnew]
    cases hpt : s.prevTail with
    | some pt =>
      have hlen := (hsome pt hpt).1
      have htl : tailLen s = V := by simp [tailLen, hpt, hlen]
      rw [sumLen_newSegments_some C V _ pt hV h2 henh hlen]
      rw [htl] at hsum
      omega
    | none =>
      have hpl := hnone hpt
      have htl : tailLen s = 0 := by simp [tailLen, hpt]
      rw [sumLen_newSegments_none C V _ hV h2 henh]
      rw [htl] at hsum
      omega
  · intro pt hpt
    rw [hptail] at hpt
    injection hpt with hpt
    subst hpt
    exact ⟨htail.2, by rw [hpendlen]; omega⟩
  · intro hpt
    rw [hptail] at hpt
    cases hpt

theorem processChunk_pending_length (C V : ℕ) (enh : List ℚ → List ℚ) (s : OAState)
    (_hVC : V < C) (_hC : C ≤ s.pending.length) :
    (processChunk C V enh s).pending.length = s.pending.length - (C - V) ∨
      (processChunk C V enh s).pending.length = s.pending.length - C := by
  by_cases hV : 0 < V
  · left; simp [processChunk, if_pos hV, List.length_drop]
  · right; simp [processChunk, if_neg hV, List.length_drop]

theorem chunkLoop_inv (C V T : ℕ) (enh : List ℚ → List ℚ)
    (hV : 0 < V) (h2 : 2 * V ≤ C)
    (hpres : ∀ x, (enh x).length = x.length) :
    ∀ (n : ℕ) (s : OAState), s.pending.length ≤ n → engineInv V T s →
      engineInv V T (chunkLoop C V enh n s) := by
  intro n
  induction n with
  | zero => intro s _ hinv; exact hinv
  | succ n ih =>
    intro s hn hinv
    rw [chunkLoop]
    by_cases hg : C ≤ s.pending.length ∧ V < C
    · rw [if_pos hg]
      have hstep := processChunk_inv C V T enh s hV h2 hpres hg.1 hinv
      have hlen : (processChunk C V enh s).pending.length ≤ n := by
        rcases processChunk_pending_length C V enh s hg.2 hg.1 with h | h <;> omega
      exact ih _ hlen hstep
    · rw [if_neg hg]; exact hinv

theorem chunkLoop_pending_lt (C V : ℕ) (enh : List ℚ → List ℚ) (hVC : V < C) :
    ∀ (n : ℕ) (s : OAState), s.pending.length ≤ n →
      (chunkLoop C V enh n s).pending.length < C := by
  intro n
  induction n with
  | zero => intro s hn; rw [chunkLoop]; omega
  | succ n ih =>
    intro s hn
    rw [chunkLoop]
    by_cases hg : C ≤ s.pending.length ∧ V < C
    · rw [if_pos hg]
      refine ih _ ?_
      rcases processChunk_pending_length C V enh s hVC hg.1 with h | h <;> omega
    · rw [if_neg hg]; omega

theorem appendPending_inv (V T : ℕ) (s : OAState) (b : List ℚ)
    (hinv : engineInv V T s) :
    engineInv V (T + b.length) { s with pending := s.pending ++ b } := by
  obtain ⟨hsum, hsome, hnone⟩ := hinv
  refine ⟨?_, ?_, ?_⟩
  · simp only [emittedTotal, tailLen, List.length_append] at hsum ⊢
    omega
  · intro pt hpt
    have := hsome pt hpt
    simp only [List.length_append]
    omega
  · intro hpt
    have := hnone hpt
    simp only [List.length_append]
    omega

theorem ingestBlock_inv (C V T : ℕ) (enh : List ℚ → List ℚ)
    (hV : 0 < V) (h2 : 2 * V ≤ C)
    (hpres : ∀ x, (enh x).length = x.length)
    (s : OAState) (b : List ℚ) (hinv : engineInv V T s) :
    engineInv V (T + b.length) (ingestBlock C V enh s b) := by
  exact chunkLoop_inv C V (T + b.length) enh hV h2 hpres _ _
    (by simp) (appendPending_inv V T s b hinv)

theorem initState_inv (V : ℕ) : engineInv V 0 initState := by
  refine ⟨rfl, ?_, ?_⟩
  · intro pt hpt; cases hpt
  · intro _; rfl

theorem foldl_ingest_inv (C V : ℕ) (enh : List ℚ → List ℚ)
    (hV : 0 < V) (h2 : 2 * V ≤ C)
    (hpres : ∀ x, (enh x).length = x.length) :
    ∀ (bs : List (List ℚ)) (s : OAState) (T : ℕ), engineInv V T s →
      engineInv V (T + sumLen bs) (bs.foldl (ingestBlock C V enh) s) := by
  intro bs
  induction bs with
  | nil => intro s T hinv; simpa [sumLen_nil] using hinv
  | cons b rest ih =>
    intro s T hinv
    have hstep := ingestBlock_inv C V T enh hV h2 hpres s b hinv
    have := ih (ingestBlock C V enh s b) (T + b.length) hstep
    rw [List.foldl_cons, sumLen_cons, ← Nat.add_assoc]
    exact this

theorem foldl_ingest_pending_lt (C V : ℕ) (enh : List ℚ → List ℚ) (hVC : V < C) :
    ∀ (bs : List (List ℚ)) (s : OAState), s.pending.length < C →
      (bs.foldl (ingestBlock C V enh) s).pending.length < C := by
  intro bs
  induction bs with
  | nil => intro s h; exact h
  | cons b rest ih =>
    intro s h
    rw [List.foldl_cons]
    exact ih _ (chunkLoop_pending_lt C V enh hVC _ _ (by simp))

theorem flushHeadSegments_some (V : ℕ) (pt enhanced : List ℚ) :
    flushHeadSegments V (some pt) enhanced =
      if 0 < min V enhanced.length then
        [crossfade (pt.drop (pt.length - min V enhanced.length))
          (enhanced.take (min V enhanced.length))] ++
        (if ¬ enhanced.drop (min V enhanced.length) = []
          then [enhanced.drop (min V enhanced.length)] else [])
      else [enhanced] := rfl

theorem flushHeadSegments_none (V : ℕ) (enhanced : List ℚ) :
    flushHeadSegments V none enhanced = [enhanced] := rfl

theorem flushHeadSegments_some_sumLen (V : ℕ) (pt enhanced : List ℚ)
    (hV : 0 < V) (hpt : pt.length = V) (hle : V ≤ enhanced.length) :
    sumLen (flushHeadSegments V (some pt) enhanced) = enhanced.length := by
  have hov : min V enhanced.length = V := by omega
  have hcf : 0 < min V enhanced.length := by omega
  have hdrop : (pt.drop (pt.length - min V enhanced.length)).length = V := by
    rw [List.length_drop]; omega
  have htake : (enhanced.take (min V enhanced.length)).length = V := by
    rw [List.length_take]; omega
  rw [flushHeadSegments_some, if_pos hcf]
  by_cases hrem : enhanced.drop (min V enhanced.length) = []
  · have hlen : enhanced.length = V := by
      have := List.length_drop (min V enhanced.length) enhanced
      rw [hrem] at this
      simp at this
      omega
    rw [if_neg (by simpa using hrem), sumLen_append, sumLen_cons, sumLen_nil,
      crossfade_length, hdrop, htake]
    omega
  · rw [if_pos (by simpa using hrem), sumLen_append, sumLen_cons, sumLen_nil, sumLen_cons,
      sumLen_nil, crossfade_length, hdrop, htake, List.length_drop]
    omega

theorem flushTailSegments_sumLen (V : ℕ) (enhanced : List ℚ)
    (hV : 0 < V) (hle : V ≤ enhanced.length) :
    sumLen (flushTailSegments V enhanced) = V := by
  have hcf : 0 < min V enhanced.length := by omega
  unfold flushTailSegments
  rw [if_pos hcf, sumLen_cons, sumLen_nil, List.length_drop]
  omega

theorem flushState_total (C V T : ℕ) (enh : List ℚ → List ℚ) (s : OAState)
    (hV : 0 < V) (hpres : ∀ x, (enh x).length = x.length)
    (hinv : engineInv V T s) (hlt : s.pending.length < C)
    (hT : T = 0 ∨ C ≤ T) :
    emittedTotal (flushState V enh s) = T := by
  obtain ⟨hsum, hsome, hnone⟩ := hinv
  cases hpt : s.prevTail with
  | none =>
    have hpl := hnone hpt
    have htl : tailLen s = 0 := by simp [tailLen, hpt]
    rcases hT with hT | hT
    · have hnil : s.pending = [] := by
        apply List.eq_nil_of_length_eq_zero; omega
      rw [flushState, if_pos hnil]
      omega
    · omega
  | some pt =>
    obtain ⟨hlen, hle⟩ := hsome pt hpt
    have htl : tailLen s = V := by simp [tailLen, hpt, hlen]
    have hpos : 0 < s.pending.length := by omega
    have hnil : ¬ s.pending = [] := by
      intro h; rw [h] at hpos; simp at hpos
    have hennil : ¬ enh s.pending = [] := by
      intro h
      have := hpres s.pending
      rw [h] at this
      simp at this
      omega
    have hel : (enh s.pending).length = s.pending.length := hpres s.pending
    rw [flushState, if_neg hnil, if_pos ⟨hV, hennil⟩]
    simp only [emittedTotal, sumLen_append, hpt]
    rw [flushHeadSegments_some_sumLen V pt _ hV hlen (by omega),
      flushTailSegments_sumLen V _ hV (by omega), hel]
    simp only [emittedTotal] at hsum
    omega

/-- Fuel-indexed greedy split of a sample list into full `C`-sized
chunks (the successive `pending[:chunk_frames]` slices taken by the loop
when overlap is zero). -/
def fullChunksF (C : ℕ) : ℕ → List ℚ → List (List ℚ)
  | 0, _ => []
  | n+1, l => if C ≤ l.length ∧ 0 < C then l.take C :: fullChunksF C n (l.drop C) else []

def fullChunks (C : ℕ) (l : List ℚ) : List (List ℚ) := fullChunksF C l.length l

/-- Fuel-indexed remainder of the greedy `C`-sized chunking. -/
def chunkRemF (C : ℕ) : ℕ → List ℚ → List ℚ
  | 0, l => l
  | n+1, l => if C ≤ l.length ∧ 0 < C then chunkRemF C n (l.drop C) else l

def chunkRem (C : ℕ) (l : List ℚ) : List ℚ := chunkRemF C l.length l

/-- Plain non-overlapping chunking: the full `C`-sized chunks followed by
the final (possibly undersized) remainder, when non-empty. -/
def plainChunks (C : ℕ) (l : List ℚ) : List (List ℚ) :=
  fullChunks C l ++ (if chunkRem C l = [] then [] else [chunkRem C l])

theorem fullChunksF_congr (C : ℕ) :
    ∀ (n m : ℕ) (l : List ℚ), l.length ≤ n → l.length ≤ m →
      fullChunksF C n l = fullChunksF C m l := by
  intro n
  induction n with
  | zero =>
    intro m l hn _
    have hl : l.length = 0 := by omega
    cases m with
    | zero => rfl
    | succ m =>
      rw [fullChunksF, fullChunksF, if_neg]
      omega
  | succ n ih =>
    intro m l hn hm
    cases m with
    | zero =>
      have hl : l.length = 0 := by omega
      rw [fullChunksF, fullChunksF, if_neg]
      omega
    | succ m =>
      rw [fullChunksF, fullChunksF]
      by_cases hg : C ≤ l.length ∧ 0 < C
      · rw [if_pos hg, if_pos hg,
          ih m (l.drop C) (by rw [List.length_drop]; omega) (by rw [List.length_drop]; omega)]
      · rw [if_neg hg, if_neg hg]

theorem chunkRemF_congr (C : ℕ) :
    ∀ (n m : ℕ) (l : List ℚ), l.length ≤ n → l.length ≤ m →
      chunkRemF C n l = chunkRemF C m l := by
  intro n
  induction n with
  | zero =>
    intro m l hn _
    have hl : l.length = 0 := by omega
    cases m with
    | zero => rfl
    | succ m =>
      rw [chunkRemF, chunkRemF, if_neg]
      omega
  | succ n ih =>
    intro m l hn hm
    cases m with
    | zero =>
      have hl : l.length = 0 := by omega
      rw [chunkRemF, chunkRemF, if_neg]
      omega
    | succ m =>
      rw [chunkRemF, chunkRemF]
      by_cases hg : C ≤ l.length ∧ 0 < C
      · rw [if_pos hg, if_pos hg,
          ih m (l.drop C) (by rw [List.length_drop]; omega) (by rw [List.length_drop]; omega)]
      · rw [if_neg hg, if_neg hg]

theorem fullChunks_pos (C : ℕ) (l : List ℚ) (hg : C ≤ l.length ∧ 0 < C) :
    fullChunks C l = l.take C :: fullChunks C (l.drop C) := by
  unfold fullChunks
  cases hl : l.length with
  | zero => omega
  | succ n =>
    rw [fullChunksF, if_pos hg]
    rw [fullChunksF_congr C n (l.drop C).length (l.drop C) (by rw [List.length_drop]; omega) rfl.le]

theorem fullChunks_neg (C : ℕ) (l : List ℚ) (hg : ¬ (C ≤ l.length ∧ 0 < C)) :
    fullChunks C l = [] := by
  unfold fullChunks
  cases hl : l.length with
  | zero => rfl
  | succ n =>
    rw [fullChunksF, if_neg hg]

theorem chunkRem_pos (C : ℕ) (l : List ℚ) (hg : C ≤ l.length ∧ 0 < C) :
    chunkRem C l = chunkRem C (l.drop C) := by
  unfold chunkRem
  cases hl : l.length with
  | zero => omega
  | succ n =>
    rw [chunkRemF, if_pos hg]
    rw [chunkRemF_congr C n (l.drop C).length (l.drop C) (by rw [List.length_drop]; omega) rfl.le]

theorem chunkRem_neg (C : ℕ) (l : List ℚ) (hg : ¬ (C ≤ l.length ∧ 0 < C)) :
    chunkRem C l = l := by
  unfold chunkRem
  cases hl : l.length with
  | zero => rfl
  | succ n =>
    rw [chunkRemF, if_neg hg]

theorem chunkRem_length_lt (C : ℕ) (hC : 0 < C) (l : List ℚ) :
    (chunkRem C l).length < C := by
  suffices h : ∀ (n : ℕ) (l : List ℚ), l.length ≤ n → (chunkRem C l).length < C by
    exact h l.length l rfl.le
  intro n
  induction n with
  | zero =>
    intro l hl
    rw [chunkRem_neg C l (by omega)]
    omega
  | succ n ih =>
    intro l hl
    by_cases hg : C ≤ l.length ∧ 0 < C
    · rw [chunkRem_pos C l hg]
      exact ih (l.drop C) (by rw [List.length_drop]; omega)
    · rw [chunkRem_neg C l hg]
      omega

theorem processChunk_v0 (C : ℕ) (enh : List ℚ → List ℚ) (s : OAState)
    (hC : 0 < C) (hpres : ∀ x, (enh x).length = x.length)
    (_hpt : s.prevTail = none) (hg : C ≤ s.pending.length) :
    processChunk C 0 enh s =
      ⟨s.pending.drop C, none, s.emitted ++ [enh (s.pending.take C)]⟩ := by
  have htlen : (s.pending.take C).length = C := by rw [List.length_take]; omega
  have hne : ¬ enh (s.pending.take C) = [] := by
    intro h
    have := hpres (s.pending.take C)
    rw [h] at this
    simp at this
    omega
  simp [processChunk, nextTail, newSegments, hne]

theorem chunkLoop_v0 (C : ℕ) (enh : List ℚ → List ℚ)
    (hC : 0 < C) (hpres : ∀ x, (enh x).length = x.length) :
    ∀ (n : ℕ) (s : OAState), s.pending.length ≤ n → s.prevTail = none →
      chunkLoop C 0 enh n s =
        ⟨chunkRem C s.pending, none, s.emitted ++ (fullChunks C s.pending).map enh⟩ := by
  intro n
  induction n with
  | zero =>
    intro s hn hpt
    have hnil : s.pending = [] := List.eq_nil_of_length_eq_zero (by omega)
    have hng : ¬ (C ≤ s.pending.length ∧ 0 < C) := by
      rw [hnil]; simp only [List.length_nil]; omega
    rw [chunkLoop, chunkRem_neg C s.pending hng, fullChunks_neg C s.pending hng]
    cases s with
    | mk p t e =>
      simp only [List.map_nil, List.append_nil]
      simp only at hpt
      rw [hpt]
  | succ n ih =>
    intro s hn hpt
    rw [chunkLoop]
    by_cases hg : C ≤ s.pending.length ∧ 0 < C
    · rw [if_pos hg, processChunk_v0 C enh s hC hpres hpt hg.1]
      rw [ih ⟨s.pending.drop C, none, s.emitted ++ [enh (s.pending.take C)]⟩
        (by simp only [List.length_drop]; omega) rfl]
      rw [chunkRem_pos C s.pending hg, fullChunks_pos C s.pending hg]
      simp
    · rw [if_neg hg, chunkRem_neg C s.pending hg, fullChunks_neg C s.pending hg]
      cases s with
      | mk p t e =>
        simp only [List.map_nil, List.append_nil]
        simp only at hpt
        rw [hpt]

theorem chunks_absorb (C : ℕ) (hC : 0 < C) :
    ∀ (n : ℕ) (l b : List ℚ), l.length ≤ n →
      fullChunks C (l ++ b) = fullChunks C l ++ fullChunks C (chunkRem C l ++ b) ∧
      chunkRem C (l ++ b) = chunkRem C (chunkRem C l ++ b) := by
  intro n
  induction n with
  | zero =>
    intro l b hl
    have hnil : l = [] := List.eq_nil_of_length_eq_zero (by omega)
    subst hnil
    have hng : ¬ (C ≤ ([] : List ℚ).length ∧ 0 < C) := by
      simp only [List.length_nil]; omega
    rw [fullChunks_neg C [] hng, chunkRem_neg C [] hng]
    simp
  | succ n ih =>
    intro l b hl
    by_cases hg : C ≤ l.length ∧ 0 < C
    · have hgb : C ≤ (l ++ b).length ∧ 0 < C := by
        rw [List.length_append]; exact ⟨by omega, hC⟩
      have htk : (l ++ b).take C = l.take C := List.take_append_of_le_length hg.1
      have hdr : (l ++ b).drop C = l.drop C ++ b := List.drop_append_of_le_length hg.1
      obtain ⟨ih1, ih2⟩ := ih (l.drop C) b (by rw [List.length_drop]; omega)
      constructor
      · rw [fullChunks_pos C (l ++ b) hgb, htk, hdr, ih1, fullChunks_pos C l hg,
          chunkRem_pos C l hg]
        simp
      · rw [chunkRem_pos C (l ++ b) hgb, hdr, ih2, chunkRem_pos C l hg]
    · rw [chunkRem_neg C l hg, fullChunks_neg C l hg]
      simp

theorem foldl_ingest_v0 (C : ℕ) (enh : List ℚ → List ℚ)
    (hC : 0 < C) (hpres : ∀ x, (enh x).length = x.length) :
    ∀ (bs : List (List ℚ)) (l : List ℚ),
      bs.foldl (ingestBlock C 0 enh) ⟨chunkRem C l, none, (fullChunks C l).map enh⟩ =
        ⟨chunkRem C (l ++ bs.flatten), none, (fullChunks C (l ++ bs.flatten)).map enh⟩ := by
  intro bs
  induction bs with
  | nil =>
    intro l
    simp
  | cons b rest ih =>
    intro l
    rw [List.foldl_cons]
    have hstep : ingestBlock C 0 enh ⟨chunkRem C l, none, (fullChunks C l).map enh⟩ b =
        ⟨chunkRem C (l ++ b), none, (fullChunks C (l ++ b)).map enh⟩ := by
      show chunkLoop C 0 enh (chunkRem C l ++ b).length
          ⟨chunkRem C l ++ b, none, (fullChunks C l).map enh⟩ =
        ⟨chunkRem C (l ++ b), none, (fullChunks C (l ++ b)).map enh⟩
      rw [chunkLoop_v0 C enh hC hpres (chunkRem C l ++ b).length
        ⟨chunkRem C l ++ b, none, (fullChunks C l).map enh⟩ (le_refl _) rfl]
      dsimp only
      obtain ⟨h1, h2⟩ := chunks_absorb C hC l.length l b (le_refl _)
      rw [h2, h1, List.map_append]
    rw [hstep, ih (l ++ b)]
    simp

theorem flushState_v0 (enh : List ℚ → List ℚ) (r : List ℚ) (E : List (List ℚ)) :
    flushState 0 enh ⟨r, none, E⟩ =
      ⟨r, none, E ++ (if r = [] then [] else [enh r])⟩ := by
  by_cases hr : r = []
  · subst hr; simp [flushState]
  · simp [flushState, hr]

theorem runEngine_v0 (C : ℕ) (enh : List ℚ → List ℚ) (blocks : List (List ℚ))
    (hC : 0 < C) (hpres : ∀ x, (enh x).length = x.length) :
    runEngine C 0 enh blocks =
      ⟨chunkRem C blocks.flatten, none, (plainChunks C blocks.flatten).map enh⟩ := by
  unfold runEngine runSession
  have hfn : sessionStep false C 0 enh = ingestBlock C 0 enh := by
    funext s b; simp [sessionStep]
  have hng : ¬ (C ≤ ([] : List ℚ).length ∧ 0 < C) := by
    simp only [List.length_nil]; omega
  have hinit : initState = (⟨chunkRem C [], none, (fullChunks C []).map enh⟩ : OAState) := by
    rw [chunkRem_neg C [] hng, fullChunks_neg C [] hng]
    rfl
  rw [hfn, hinit, foldl_ingest_v0 C enh hC hpres blocks [], List.nil_append, flushState_v0]
  unfold plainChunks
  by_cases hrem : chunkRem C blocks.flatten = [] <;> simp [hrem]

theorem sumLen_map_pres (enh : List ℚ → List ℚ)
    (hpres : ∀ x, (enh x).length = x.length) (L : List (List ℚ)) :
    sumLen (L.map enh) = sumLen L := by
  induction L with
  | nil => rfl
  | cons x xs ih => rw [List.map_cons, sumLen_cons, sumLen_cons, hpres x, ih]

theorem fullChunks_flatten_rem (C : ℕ) (hC : 0 < C) (l : List ℚ) :
    (fullChunks C l).flatten ++ chunkRem C l = l := by
  suffices h : ∀ (n : ℕ) (l : List ℚ), l.length ≤ n →
      (fullChunks C l).flatten ++ chunkRem C l = l by
    exact h l.length l (le_refl _)
  intro n
  induction n with
  | zero =>
    intro l hl
    have hnil : l = [] := List.eq_nil_of_length_eq_zero (by omega)
    subst hnil
    have hng : ¬ (C ≤ ([] : List ℚ).length ∧ 0 < C) := by
      simp only [List.length_nil]; omega
    rw [fullChunks_neg C [] hng, chunkRem_neg C [] hng]
    simp
  | succ n ih =>
    intro l hl
    by_cases hg : C ≤ l.length ∧ 0 < C
    · rw [fullChunks_pos C l hg, chunkRem_pos C l hg]
      have := ih (l.drop C) (by rw [List.length_drop]; omega)
      simp only [List.flatten_cons, List.append_assoc, this]
      exact List.take_append_drop C l
    · rw [fullChunks_neg C l hg, chunkRem_neg C l hg]
      simp

theorem plainChunks_flatten (C : ℕ) (hC : 0 < C) (l : List ℚ) :
    (plainChunks C l).flatten = l := by
  unfold plainChunks
  have hfull := fullChunks_flatten_rem C hC l
  by_cases hrem : chunkRem C l = []
  · rw [if_pos hrem]
    rw [hrem, List.append_nil] at hfull
    simp [hfull]
  · rw [if_neg hrem, List.flatten_append]
    simpa using hfull

theorem runEngine_v0_emittedTotal (C : ℕ) (enh : List ℚ → List ℚ) (blocks : List (List ℚ))
    (hC : 0 < C) (hpres : ∀ x, (enh x).length = x.length) :
    emittedTotal (runEngine C 0 enh blocks) = sumLen blocks := by
  rw [runEngine_v0 C enh blocks hC hpres]
  show sumLen ((plainChunks C blocks.flatten).map enh) = sumLen blocks
  rw [sumLen_map_pres enh hpres, sumLen_eq_length_flatten, plainChunks_flatten C hC,
    sumLen_eq_length_flatten]


theorem linspace_le_one (a b : ℚ) (n : ℕ) (h : n ≤ 1) :
    linspace a b n = List.replicate n a := by
  rw [linspace, if_pos h]

theorem linspace_of_lt (a b : ℚ) (n : ℕ) (h : 1 < n) :
    linspace a b n =
      (List.range n).map (fun (i : ℕ) => a + (b - a) * (i : ℚ) / ((n : ℚ) - 1)) := by
  rw [linspace, if_neg (by omega)]

theorem crossfade_self (x : List ℚ) : crossfade x x = x := by
  apply List.ext_getElem
  · rw [crossfade_length, Nat.min_self]
  · intro i h1 h2
    simp only [crossfade, List.getElem_zipWith]
    by_cases h : x.length ≤ 1
    · simp only [linspace_le_one 1 0 _ h, linspace_le_one 0 1 _ h,
        List.getElem_replicate]
      ring
    · simp only [linspace_of_lt 1 0 _ (by omega : 1 < x.length),
        linspace_of_lt 0 1 _ (by omega : 1 < x.length),
        List.getElem_map, List.getElem_range]
      ring

theorem foldl_passthrough (C V : ℕ) (enh : List ℚ → List ℚ) :
    ∀ (bs : List (List ℚ)) (s : OAState),
      bs.foldl (sessionStep true C V enh) s = ⟨s.pending, s.prevTail, s.emitted ++ bs⟩ := by
  intro bs
  induction bs with
  | nil =>
    intro s
    cases s; simp
  | cons b rest ih =>
    intro s
    rw [List.foldl_cons]
    have hstep : sessionStep true C V enh s b = ⟨s.pending, s.prevTail, s.emitted ++ [b]⟩ := by
      cases s; simp [sessionStep]
    rw [hstep, ih]
    simp

theorem runSession_passthrough (C V : ℕ) (enh : List ℚ → List ℚ) (blocks : List (List ℚ)) :
    runSession true C V enh blocks = ⟨[], none, blocks⟩ := by
  unfold runSession
  rw [foldl_passthrough C V enh blocks initState]
  show flushState V enh ⟨[], none, [] ++ blocks⟩ = ⟨[], none, blocks⟩
  rw [List.nil_append, flushState, if_pos rfl]

/-- C1 (counterexample): with `chunk_frames = 4`, `overlap_frames = 1`
(a configuration with `0 ≤ overlap < chunk`), identity enhancement and
a single ingested block of 2 samples, the engine emits 3 samples, not
2: the no-prev-tail flush branch first emits the whole enhanced window
("just output everything") and then re-emits its final tail, so a
stream shorter than one chunk is emitted with `min(overlap, T)` extra
samples. -/
theorem c1_no_loss_counterexample :
    ¬ emittedTotal (runEngine 4 1 (fun x => x) [[(1:ℚ), 2]]) =
        sumLen [[(1:ℚ), 2]] := by
  have h : (runEngine 4 1 (fun x => x) [[(1:ℚ), 2]]).emitted = [[1, 2], [2]] := by
    norm_num [runEngine, runSession, sessionStep, ingestBlock, chunkLoop, flushState,
      flushHeadSegments, flushTailSegments, initState]
    decide
  show ¬ sumLen (runEngine 4 1 (fun x => x) [[(1:ℚ), 2]]).emitted = sumLen [[(1:ℚ), 2]]
  rw [h]
  decide

/-- C1 (amended): the no-loss property — total emitted EnhancedSegment
length equals the total ingested length `T` — holds for every
length-preserving enhancement exactly in the regimes the code actually
supports: `overlap_frames = 0`, or `2 * overlap_frames ≤ chunk_frames`
together with `T = 0` or `T ≥ chunk_frames` (at least one full chunk,
so that a previous tail exists at flush time).  Outside these regimes
the flush over-emits (see the counterexample). -/
theorem c1_no_loss_amended (C V : ℕ) (enh : List ℚ → List ℚ) (blocks : List (List ℚ))
    (hVC : V < C) (hpres : ∀ x, (enh x).length = x.length)
    (hcond : V = 0 ∨ (2 * V ≤ C ∧ (sumLen blocks = 0 ∨ C ≤ sumLen blocks))) :
    emittedTotal (runEngine C V enh blocks) = sumLen blocks := by
  rcases hcond with hV0 | ⟨h2, hT⟩
  · subst hV0
    exact runEngine_v0_emittedTotal C enh blocks (by omega) hpres
  · by_cases hV : 0 < V
    · unfold runEngine runSession
      have hfn : sessionStep false C V enh = ingestBlock C V enh := by
        funext s b; simp [sessionStep]
      rw [hfn]
      have hinv := foldl_ingest_inv C V enh hV h2 hpres blocks initState 0 (initState_inv V)
      rw [Nat.zero_add] at hinv
      have hlt := foldl_ingest_pending_lt C V enh hVC blocks initState
        (by simp [initState]; omega)
      exact flushState_total C V (sumLen blocks) enh _ hV hpres hinv hlt hT
    · have hV0 : V = 0 := by omega
      subst hV0
      exact runEngine_v0_emittedTotal C enh blocks (by omega) hpres

/-- C1 (witness): the amended no-loss theorem applied at the concrete
configuration `chunk = 4`, `overlap = 1`, identity enhancement and one
5-sample block. -/
theorem c1_no_loss_witness :
    emittedTotal (runEngine 4 1 (fun x => x) [[(1:ℚ), 2, 3, 4, 5]]) =
      sumLen [[(1:ℚ), 2, 3, 4, 5]] :=
  c1_no_loss_amended 4 1 (fun x => x) [[(1:ℚ), 2, 3, 4, 5]] (by omega) (fun x => rfl)
    (Or.inr ⟨by omega, Or.inr (by decide)⟩)

/-- C2 (counterexample): with denoising enabled and the enhance call
equal to the identity function, `chunk = 4`, `overlap = 1`, input
`[1,2,3,4,5]`, the concatenation of the emitted EnhancedSegments is
`[2,3,4,5,5]`, not `[1,2,3,4,5]`: the first chunk's head is never
emitted (no previous tail exists to crossfade it into) and the flush
re-emits the final tail, even though ramp_up + ramp_down = 1 makes each
individual crossfade of identical signals exact. -/
theorem c2_passthrough_counterexample :
    ¬ (runEngine 4 1 (fun x => x) [[(1:ℚ), 2, 3, 4, 5]]).emitted.flatten =
        ([[(1:ℚ), 2, 3, 4, 5]] : List (List ℚ)).flatten := by
  have h : (runEngine 4 1 (fun x => x) [[(1:ℚ), 2, 3, 4, 5]]).emitted =
      [[2, 3], [4], [5], [5]] := by
    norm_num [runEngine, runSession, sessionStep, ingestBlock, chunkLoop, flushState,
      flushHeadSegments, flushTailSegments, initState, processChunk, newSegments,
      cfSegments, midSegments, nextTail, crossfade, linspace]
    decide
  rw [h]
  decide

/-- C2 (amended): exact passthrough holds on the paths the code
actually routes through unchanged: (1) with denoising disabled (or the
global passthrough flag set) every ingested block is emitted as-is, so
the concatenation of emitted segments equals the concatenation of
ingested blocks; (2) with identity enhancement and `overlap_frames = 0`
the chunked path also reproduces the input exactly; and (3) the
crossfade of two identical signals is the identity
(`ramp_up + ramp_down = 1` pointwise), though with `overlap > 0` the
chunked path still fails passthrough for the boundary reasons of the
counterexample. -/
theorem c2_passthrough_amended :
    (∀ (C V : ℕ) (enh : List ℚ → List ℚ) (blocks : List (List ℚ)),
      (runSession true C V enh blocks).emitted = blocks) ∧
    (∀ (C : ℕ) (blocks : List (List ℚ)), 0 < C →
      (runEngine C 0 (fun x => x) blocks).emitted.flatten = blocks.flatten) ∧
    (∀ x : List ℚ, crossfade x x = x) := by
  refine ⟨?_, ?_, crossfade_self⟩
  · intro C V enh blocks
    rw [runSession_passthrough C V enh blocks]
  · intro C blocks hC
    rw [runEngine_v0 C (fun x => x) blocks hC (fun x => rfl)]
    show ((plainChunks C blocks.flatten).map (fun x => x)).flatten = blocks.flatten
    rw [List.map_id', plainChunks_flatten C hC]

/-- C2 (witness): the amended passthrough theorem applied at concrete
inputs: a disabled-denoise session over two blocks, and the
zero-overlap chunked path over one 3-sample block with `chunk = 2`. -/
theorem c2_passthrough_witness :
    (runSession true 4 1 (fun x => x) [[(1:ℚ), 2], [3]]).emitted = [[(1:ℚ), 2], [3]] ∧
    (runEngine 2 0 (fun x => x) [[(1:ℚ), 2, 3]]).emitted.flatten =
      ([[(1:ℚ), 2, 3]] : List (List ℚ)).flatten :=
  ⟨c2_passthrough_amended.1 4 1 (fun x => x) [[(1:ℚ), 2], [3]],
    c2_passthrough_amended.2.1 2 [[(1:ℚ), 2, 3]] (by omega)⟩

/-- C4: with `overlap_frames = 0` the engine degrades to plain
non-overlapping chunking: the emitted segments are exactly the enhanced
full `chunk_frames`-sized slices of the ingested stream followed by the
enhanced remainder (emitted whole by the flush), `prev_tail` stays
absent for the whole run, and the total emitted length equals the total
ingested length. -/
theorem c4_zero_overlap (C : ℕ) (enh : List ℚ → List ℚ) (blocks : List (List ℚ))
    (hC : 0 < C) (hpres : ∀ x, (enh x).length = x.length) :
    (runEngine C 0 enh blocks).emitted = (plainChunks C blocks.flatten).map enh ∧
    (runEngine C 0 enh blocks).prevTail = none ∧
    emittedTotal (runEngine C 0 enh blocks) = sumLen blocks := by
  refine ⟨?_, ?_, runEngine_v0_emittedTotal C enh blocks hC hpres⟩
  · rw [runEngine_v0 C enh blocks hC hpres]
  · rw [runEngine_v0 C enh blocks hC hpres]

/-- C4 (witness): the zero-overlap theorem applied at `chunk = 2`,
identity enhancement, one 3-sample block. -/
theorem c4_zero_overlap_witness :
    (runEngine 2 0 (fun x => x) [[(1:ℚ), 2, 3]]).emitted =
      (plainChunks 2 ([[(1:ℚ), 2, 3]] : List (List ℚ)).flatten).map (fun x => x) ∧
    (runEngine 2 0 (fun x => x) [[(1:ℚ), 2, 3]]).prevTail = none ∧
    emittedTotal (runEngine 2 0 (fun x => x) [[(1:ℚ), 2, 3]]) =
      sumLen [[(1:ℚ), 2, 3]] :=
  c4_zero_overlap 2 (fun x => x) [[(1:ℚ), 2, 3]] (by omega) (fun x => rfl)

/-- C6: the enhancement call sites are wrapped in `try/except`: if the
model invocation raises (`E w = none`), the original un-enhanced window
is used for that call; and a session whose enhance call fails on every
window runs exactly like a session with identity enhancement — every
subsequent window is still processed and the ingestion loop never
propagates the exception (the run is a total function of the input). -/
theorem c6_enhance_failure_fallback :
    (∀ (E : List ℚ → Option (List ℚ)) (w : List ℚ),
      E w = none → enhanceWithFallback E w = w) ∧
    (∀ (C V : ℕ) (blocks : List (List ℚ)),
      runEngine C V (enhanceWithFallback (fun _ => none)) blocks =
        runEngine C V (fun w => w) blocks) := by
  constructor
  · intro E w hE
    unfold enhanceWithFallback
    rw [hE]
  · intro C V blocks
    have h : enhanceWithFallback (fun _ => none) = (fun w => w) := by
      funext w; rfl
    rw [h]

/-- C6 (witness): the fallback law applied at a concrete failing oracle
and window. -/
theorem c6_enhance_failure_fallback_witness :
    enhanceWithFallback (fun _ => none) [(1:ℚ)] = [(1:ℚ)] :=
  c6_enhance_failure_fallback.1 (fun _ => none) [(1:ℚ)] rfl

/-- Model of the recording side of a session (`WebRTCSession`):
`frames` is `self._recording_frames` (never cleared by the source),
`sampleRate` is `self._recording_sample_rate`, `persisted` logs every
completed persistence action of `_save_recording` (one audio file write
plus one `StreamRecording` row each), `closed` is `self._closed`. -/
structure RecSession where
  frames : List (List ℚ)
  sampleRate : Option ℕ
  persisted : List (List ℚ × ℕ)
  closed : Bool
deriving DecidableEq, Repr

/-- Defensive clip applied before writing
(`np.clip(full_audio, -1.0, 1.0)`). -/
def clipSample (x : ℚ) : ℚ := max (-1) (min 1 x)

/-- Guard and payload of `WebRTCSession._save_recording`
(`webrtc_handler.py` lines 424-443): with no frames or no (falsy)
sample rate nothing is persisted and the call returns normally;
otherwise the concatenated, clipped audio is written once. -/
def trySaveRecording (frames : List (List ℚ)) (sampleRate : Option ℕ) :
    Option (List ℚ × ℕ) :=
  match sampleRate with
  | none => none
  | some sr => if frames = [] ∨ sr = 0 then none else some (frames.flatten.map clipSample, sr)

/-- One invocation of `_save_recording` on the session state: appends a
persistence action when the guard passes; the frame list is not
cleared (the source never clears `self._recording_frames`). -/
def saveRecordingStep (s : RecSession) : RecSession :=
  match trySaveRecording s.frames s.sampleRate with
  | none => s
  | some p => { s with persisted := s.persisted ++ [p] }

/-- End of the `consume` coroutine (`webrtc_handler.py` lines 281-282):
after the flush, `await self._save_recording()`. -/
def consumeLoopEnd (s : RecSession) : RecSession := saveRecordingStep s

/-- `WebRTCSession.close` (`webrtc_handler.py` lines 471-490): calls
`_save_recording` again, then marks the session closed and tears down
the peer connections and listener queues. -/
def sessionClose (s : RecSession) : RecSession :=
  { saveRecordingStep s with closed := true }

/-- C3 (counterexample): a session whose ingestion loop ended on its
own (broadcaster track ended, so `consume` ran its flush and saved) and
which is then closed by `close_session` persists the recording twice —
two file writes and two `StreamRecording` rows — and the recording
frame list is never cleared. -/
theorem c3_single_flush_counterexample :
    (sessionClose (consumeLoopEnd ⟨[[(1:ℚ)]], some 48000, [], false⟩)).persisted.length = 2 ∧
    ¬ (sessionClose (consumeLoopEnd ⟨[[(1:ℚ)]], some 48000, [], false⟩)).frames = [] := by
  constructor
  · norm_num [sessionClose, consumeLoopEnd, saveRecordingStep, trySaveRecording]
  · norm_num [sessionClose, consumeLoopEnd, saveRecordingStep, trySaveRecording]

/-- C3 (amended): every `_save_recording` trigger with a non-empty
frame list and a set non-zero sample rate persists the recording once
and leaves the frame list in place; there are two such triggers —
termination of the ingestion loop and `close` — so a session closed
after its ingestion loop already ended persists the recording exactly
twice, while `close` alone persists it exactly once; the buffer is
never cleared. -/
theorem c3_single_flush_amended (s : RecSession) (sr : ℕ)
    (hf : ¬ s.frames = []) (hsr : s.sampleRate = some sr) (hsr0 : ¬ sr = 0) :
    (sessionClose s).persisted =
      s.persisted ++ [(s.frames.flatten.map clipSample, sr)] ∧
    (sessionClose s).frames = s.frames ∧
    (sessionClose s).closed = true ∧
    (sessionClose (consumeLoopEnd s)).persisted.length = s.persisted.length + 2 := by
  have hsave : trySaveRecording s.frames s.sampleRate =
      some (s.frames.flatten.map clipSample, sr) := by
    rw [hsr, trySaveRecording, if_neg (by simp [hf, hsr0])]
  refine ⟨?_, ?_, ?_, ?_⟩
  · simp [sessionClose, saveRecordingStep, hsave]
  · simp [sessionClose, saveRecordingStep, hsave]
  · simp [sessionClose, saveRecordingStep, hsave]
  · have hmid : consumeLoopEnd s =
        { s with persisted := s.persisted ++ [(s.frames.flatten.map clipSample, sr)] } := by
      simp [consumeLoopEnd, saveRecordingStep, hsave]
    rw [hmid]
    have hsave2 : trySaveRecording s.frames s.sampleRate =
        some (s.frames.flatten.map clipSample, sr) := hsave
    simp [sessionClose, saveRecordingStep, hsave2]

/-- C3 (witness): the amended persistence count theorem applied at a
concrete one-frame session. -/
theorem c3_single_flush_witness :
    (sessionClose ⟨[[(1:ℚ)]], some 48000, [], false⟩).persisted =
      [] ++ [(([[(1:ℚ)]] : List (List ℚ)).flatten.map clipSample, 48000)] ∧
    (sessionClose ⟨[[(1:ℚ)]], some 48000, [], false⟩).frames = [[(1:ℚ)]] ∧
    (sessionClose ⟨[[(1:ℚ)]], some 48000, [], false⟩).closed = true ∧
    (sessionClose (consumeLoopEnd ⟨[[(1:ℚ)]], some 48000, [], false⟩)).persisted.length =
      ([] : List (List ℚ × ℕ)).length + 2 :=
  c3_single_flush_amended ⟨[[(1:ℚ)]], some 48000, [], false⟩ 48000
    (by simp) rfl (by omega)

/-- C9: if zero segments were ever appended, `_save_recording` returns
without writing a file or creating a record (`"No audio frames to
save"`), and `close` still completes its teardown normally. -/
theorem c9_empty_recording (sr : Option ℕ) (persisted : List (List ℚ × ℕ)) :
    trySaveRecording [] sr = none ∧
    (sessionClose ⟨[], sr, persisted, false⟩).persisted = persisted ∧
    (sessionClose ⟨[], sr, persisted, false⟩).closed = true := by
  have hnone : trySaveRecording [] sr = none := by
    cases sr with
    | none => rfl
    | some sr => simp [trySaveRecording]
  exact ⟨hnone, by simp [sessionClose, saveRecordingStep, hnone],
    by simp [sessionClose, saveRecordingStep, hnone]⟩

/-- Capacity of a listener queue
(`asyncio.Queue(maxsize=50)`, `webrtc_handler.py` line 352). -/
def listenerQueueMaxsize : ℕ := 50

/-- Occupancy threshold guarding the denoised-path fan-out push
(`if q.qsize() < 10: q.put_nowait(...)`, `webrtc_handler.py` line 233). -/
def denoisedPushThreshold : ℕ := 10

/-- Occupancy threshold guarding the passthrough-path fan-out push
(`if q.qsize() < 50: q.put_nowait(...)`, `webrtc_handler.py` line 167). -/
def passthroughPushThreshold : ℕ := 50

/-- One fan-out push of an EnhancedSegment into one listener queue: the
producer checks the queue size against the path's threshold and either
enqueues with the non-blocking `put_nowait` or silently skips (drops)
the new segment for that listener.  The queue is modelled as the list
of pending segments, oldest first. -/
def fanoutPush (threshold : ℕ) (q : List (List ℚ)) (seg : List ℚ) : List (List ℚ) :=
  if q.length < threshold then q ++ [seg] else q

/-- Events a listener queue undergoes: a producer push, or the listener
task consuming the head (`await self._queue.get()`). -/
inductive ListenerEvent where
  | push : List ℚ → ListenerEvent
  | drain : ListenerEvent

/-- Effect of one event on a listener queue. -/
def listenerQueueStep (threshold : ℕ) (q : List (List ℚ)) : ListenerEvent → List (List ℚ)
  | ListenerEvent.push seg => fanoutPush threshold q seg
  | ListenerEvent.drain => q.tail

theorem listenerQueueStep_length_le (threshold : ℕ) (q : List (List ℚ))
    (e : ListenerEvent) (h : q.length ≤ threshold) :
    (listenerQueueStep threshold q e).length ≤ threshold := by
  cases e with
  | push seg =>
    show (fanoutPush threshold q seg).length ≤ threshold
    unfold fanoutPush
    by_cases hlt : q.length < threshold
    · rw [if_pos hlt, List.length_append]
      simp
      omega
    · rw [if_neg hlt]
      exact h
  | drain =>
    show q.tail.length ≤ threshold
    rw [List.length_tail]
    omega

theorem foldl_listenerQueueStep_le (threshold : ℕ) :
    ∀ (evs : List ListenerEvent) (q : List (List ℚ)), q.length ≤ threshold →
      (evs.foldl (listenerQueueStep threshold) q).length ≤ threshold := by
  intro evs
  induction evs with
  | nil => intro q h; exact h
  | cons e rest ih =>
    intro q h
    rw [List.foldl_cons]
    exact ih _ (listenerQueueStep_length_le threshold q e h)

/-- C5: fan-out backpressure.  A push that would exceed the queue's
capacity drops the newly produced segment for that listener only — the
queue is left exactly as it was, so no older queued segment is ever
displaced; every push either appends the new segment or is a no-op
(the producer uses `put_nowait` behind a size check, never a blocking
wait, so the push is a total function of the queue); and under any
sequence of pushes and drains, on either path's threshold, a listener
queue that starts empty — even one that never drains — never holds
more than the configured capacity of 50 pending segments. -/
theorem c5_backpressure_drop_newest (q : List (List ℚ)) (seg : List ℚ) (t : ℕ)
    (hcap : t ≤ listenerQueueMaxsize) :
    (listenerQueueMaxsize ≤ q.length → fanoutPush t q seg = q) ∧
    (fanoutPush t q seg = q ∨ fanoutPush t q seg = q ++ [seg]) ∧
    (∀ evs : List ListenerEvent,
      (evs.foldl (listenerQueueStep t) []).length ≤ listenerQueueMaxsize) := by
  refine ⟨?_, ?_, ?_⟩
  · intro hfull
    unfold fanoutPush
    rw [if_neg (by unfold listenerQueueMaxsize at hfull hcap; omega)]
  · unfold fanoutPush
    by_cases hlt : q.length < t
    · right; rw [if_pos hlt]
    · left; rw [if_neg hlt]
  · intro evs
    have h := foldl_listenerQueueStep_le t evs [] (by simp)
    omega

/-- C5 (witness): the backpressure theorem applied at the denoised-path
threshold with a queue already at capacity. -/
theorem c5_backpressure_drop_newest_witness :
    (listenerQueueMaxsize ≤ (List.replicate 50 ([] : List ℚ)).length →
      fanoutPush denoisedPushThreshold (List.replicate 50 []) [(1:ℚ)] =
        List.replicate 50 []) ∧
    (fanoutPush denoisedPushThreshold (List.replicate 50 []) [(1:ℚ)] =
        List.replicate 50 [] ∨
      fanoutPush denoisedPushThreshold (List.replicate 50 []) [(1:ℚ)] =
        List.replicate 50 [] ++ [[(1:ℚ)]]) ∧
    (∀ evs : List ListenerEvent,
      (evs.foldl (listenerQueueStep denoisedPushThreshold) []).length ≤
        listenerQueueMaxsize) :=
  c5_backpressure_drop_newest (List.replicate 50 []) [(1:ℚ)]
    denoisedPushThreshold (by decide)

/-- C10: the denoised (non-passthrough) fan-out path pushes into a
listener queue only while it holds fewer than 10 pending segments, so
under any event sequence an initially empty listener queue on that path
never exceeds 10 pending segments even though the queue is constructed
with `maxsize=50`; a push at occupancy 10 is dropped on the denoised
path but accepted on the passthrough path, whose threshold is the full
50 — the two paths drop at different occupancy levels. -/
theorem c10_denoised_path_threshold :
    denoisedPushThreshold = 10 ∧
    passthroughPushThreshold = 50 ∧
    listenerQueueMaxsize = 50 ∧
    denoisedPushThreshold < listenerQueueMaxsize ∧
    (∀ evs : List ListenerEvent,
      (evs.foldl (listenerQueueStep denoisedPushThreshold) []).length ≤
        denoisedPushThreshold) ∧
    (∀ (q : List (List ℚ)) (seg : List ℚ), denoisedPushThreshold ≤ q.length →
      fanoutPush denoisedPushThreshold q seg = q) ∧
    fanoutPush denoisedPushThreshold (List.replicate 10 []) [(1:ℚ)] =
      List.replicate 10 [] ∧
    fanoutPush passthroughPushThreshold (List.replicate 10 []) [(1:ℚ)] =
      List.replicate 10 [] ++ [[(1:ℚ)]] := by
  refine ⟨rfl, rfl, rfl, by decide, ?_, ?_, by decide, by decide⟩
  · intro evs
    exact foldl_listenerQueueStep_le denoisedPushThreshold evs [] (by simp)
  · intro q seg hge
    unfold fanoutPush
    rw [if_neg (by omega)]

/-- C10 (witness): the per-push drop law applied at a concrete
10-element queue. -/
theorem c10_denoised_path_threshold_witness :
    fanoutPush denoisedPushThreshold (List.replicate 10 ([] : List ℚ)) [(2:ℚ)] =
      List.replicate 10 ([] : List ℚ) :=
  c10_denoised_path_threshold.2.2.2.2.2.1 (List.replicate 10 []) [(2:ℚ)] (by decide)

/-- An entry of the module-level session registry
(`_sessions: Dict[str, WebRTCSession]`, `webrtc_handler.py` line 493):
the session id (the dict key, a fresh UUID per `create_session`) and
the owning broadcaster's username. -/
structure SessionEntry where
  sessionId : ℕ
  username : String
deriving DecidableEq, Repr

/-- `create_session` (`webrtc_handler.py` lines 496-503): a fresh id is
generated and the new session is inserted into the registry. -/
def createSession (reg : List SessionEntry) (sid : ℕ) (u : String) : List SessionEntry :=
  reg ++ [⟨sid, u⟩]

/-- `close_session` (`webrtc_handler.py` lines 517-520):
`_sessions.pop(session_id, None)` plus `session.close()`. -/
def closeSession (reg : List SessionEntry) (sid : ℕ) : List SessionEntry :=
  reg.filter (fun s => s.sessionId != sid)

/-- `get_session_by_username` (`webrtc_handler.py` lines 510-514):
first registry entry with the given username. -/
def getSessionByUsername (reg : List SessionEntry) (u : String) : Option SessionEntry :=
  reg.find? (fun s => s.username == u)

/-- `start_stream` (`views.py` lines 131-136): close any lingering
session of the user first, then create the new one. -/
def startStream (reg : List SessionEntry) (sid : ℕ) (u : String) : List SessionEntry :=
  match getSessionByUsername reg u with
  | some s => createSession (closeSession reg s.sessionId) sid u
  | none => createSession reg sid u

/-- Registry entries belonging to one username. -/
def usernameSessions (reg : List SessionEntry) (u : String) : List SessionEntry :=
  reg.filter (fun s => s.username == u)

/-- At most one registered session per broadcaster username. -/
def atMostOnePerUsername (reg : List SessionEntry) : Prop :=
  ∀ u, (usernameSessions reg u).length ≤ 1

theorem usernameSessions_append_single (reg : List SessionEntry) (e : SessionEntry)
    (u : String) :
    usernameSessions (reg ++ [e]) u =
      usernameSessions reg u ++ (if e.username = u then [e] else []) := by
  unfold usernameSessions
  rw [List.filter_append]
  congr 1
  by_cases he : e.username = u
  · simp [he]
  · simp [he]

theorem usernameSessions_eq_nil_of_find_none (reg : List SessionEntry) (u : String)
    (hfind : getSessionByUsername reg u = none) :
    usernameSessions reg u = [] :=
  List.filter_eq_nil_iff.mpr (List.find?_eq_none.mp hfind)

theorem usernameSessions_of_find_some (reg : List SessionEntry) (u : String)
    (s : SessionEntry) (h1 : atMostOnePerUsername reg)
    (hfind : getSessionByUsername reg u = some s) :
    usernameSessions reg u = [s] := by
  have hfind2 : reg.find? (fun x => x.username == u) = some s := hfind
  have hmem : s ∈ reg := List.mem_of_find?_eq_some hfind2
  have hp := List.find?_some hfind2
  have hmem2 : s ∈ usernameSessions reg u := List.mem_filter.mpr ⟨hmem, hp⟩
  have hlen : (usernameSessions reg u).length ≤ 1 := h1 u
  have hpos : 0 < (usernameSessions reg u).length := by
    apply List.length_pos.mpr
    intro h0
    rw [h0] at hmem2
    cases hmem2
  have hone : (usernameSessions reg u).length = 1 := by omega
  obtain ⟨a, ha⟩ := List.length_eq_one.mp hone
  rw [ha] at hmem2 ⊢
  have hsa : s = a := by simpa using hmem2
  rw [hsa]

theorem usernameSessions_close_found (reg : List SessionEntry) (u : String)
    (s : SessionEntry) (h1 : atMostOnePerUsername reg)
    (hfind : getSessionByUsername reg u = some s) :
    usernameSessions (closeSession reg s.sessionId) u = [] := by
  have huniq := usernameSessions_of_find_some reg u s h1 hfind
  unfold usernameSessions closeSession
  rw [List.filter_eq_nil_iff]
  intro x hx hxu
  obtain ⟨hxmem, hxkeep⟩ := List.mem_filter.mp hx
  have hxin : x ∈ usernameSessions reg u := List.mem_filter.mpr ⟨hxmem, hxu⟩
  rw [huniq] at hxin
  have hxs : x = s := by simpa using hxin
  subst hxs
  simp at hxkeep

theorem closeSession_atMostOne (reg : List SessionEntry) (sid : ℕ)
    (h : atMostOnePerUsername reg) :
    atMostOnePerUsername (closeSession reg sid) := by
  intro u2
  have hsub : List.Sublist (closeSession reg sid) reg := List.filter_sublist reg
  have hsub2 : List.Sublist (usernameSessions (closeSession reg sid) u2)
      (usernameSessions reg u2) := List.Sublist.filter _ hsub
  exact le_trans (List.Sublist.length_le hsub2) (h u2)

/-- C8: last-writer-wins session uniqueness.  If the registry holds at
most one session per username, then after `start_stream` it still does
(the new session replaces any old one for that username); the old
session of the same username is closed and removed before the new one
is inserted, so no entry with the old session id survives (the fresh
UUID differs from the old id); and `close_session` also preserves
uniqueness, so the invariant holds at every point after a start-stream
request completes. -/
theorem c8_last_writer_wins (reg : List SessionEntry) (sid : ℕ) (u : String)
    (h : atMostOnePerUsername reg) :
    atMostOnePerUsername (startStream reg sid u) ∧
    (∀ s, getSessionByUsername reg u = some s → ¬ sid = s.sessionId →
      ∀ x ∈ startStream reg sid u, ¬ x.sessionId = s.sessionId) ∧
    (∀ sid2, atMostOnePerUsername (closeSession reg sid2)) := by
  refine ⟨?_, ?_, fun sid2 => closeSession_atMostOne reg sid2 h⟩
  · intro u2
    unfold startStream
    cases hfind : getSessionByUsername reg u with
    | none =>
      show (usernameSessions (createSession reg sid u) u2).length ≤ 1
      unfold createSession
      rw [usernameSessions_append_single, List.length_append]
      by_cases hu : u = u2
      · subst hu
        rw [usernameSessions_eq_nil_of_find_none reg u hfind]
        simp
      · have hne : ¬ (⟨sid, u⟩ : SessionEntry).username = u2 := hu
        rw [if_neg hne]
        have := h u2
        simp
        omega
    | some s =>
      show (usernameSessions (createSession (closeSession reg s.sessionId) sid u) u2).length ≤ 1
      unfold createSession
      rw [usernameSessions_append_single, List.length_append]
      by_cases hu : u = u2
      · subst hu
        rw [usernameSessions_close_found reg u s h hfind]
        simp
      · have hne : ¬ (⟨sid, u⟩ : SessionEntry).username = u2 := hu
        rw [if_neg hne]
        have := closeSession_atMostOne reg s.sessionId h u2
        simp
        omega
  · intro s hfind hne x hx
    unfold startStream at hx
    rw [hfind] at hx
    unfold createSession closeSession at hx
    rcases List.mem_append.mp hx with hx1 | hx2
    · have hxkeep := (List.mem_filter.mp hx1).2
      simpa using hxkeep
    · have hxe : x = ⟨sid, u⟩ := by simpa using hx2
      subst hxe
      simpa using hne

/-- C8 (witness): the uniqueness theorem applied to the empty registry
and a concrete start-stream request. -/
theorem c8_last_writer_wins_witness :
    atMostOnePerUsername (startStream [] 7 "alice") ∧
    (∀ s, getSessionByUsername [] "alice" = some s → ¬ 7 = s.sessionId →
      ∀ x ∈ startStream [] 7 "alice", ¬ x.sessionId = s.sessionId) ∧
    (∀ sid2, atMostOnePerUsername (closeSession [] sid2)) :=
  c8_last_writer_wins [] 7 "alice" (by intro u2; simp [usernameSessions])

/-- Outcome of a listener's join attempt (`views.py listener_offer`
plus `WebRTCSession.create_listener_connection`). -/
inductive OfferOutcome where
  | notStreaming
  | streamNotReady
  | answered
deriving DecidableEq, Repr

/-- Bound of the wait for the broadcaster's ready signal:
`asyncio.wait_for(self.ready.wait(), timeout=15.0)`
(`webrtc_handler.py` line 347). -/
def listenerOfferTimeoutSeconds : ℚ := 15

/-- `listener_offer` (`views.py` lines 230-243) composed with
`create_listener_connection` (`webrtc_handler.py` lines 343-356).  With
no registered session for the username, the view fails immediately with
`"User not streaming"` — the ready signal is never consulted.  With a
session, the handler waits on the session's ready event for at most 15
seconds; `readyWithinTimeout` abstracts whether the event is set within
that bound: if not, the wait raises and the view returns the
`"Stream not yet ready"` failure.  The returned registry is the state
of the broadcaster-side session registry after the attempt. -/
def listenerOffer (reg : List SessionEntry) (u : String) (readyWithinTimeout : Bool) :
    OfferOutcome × List SessionEntry :=
  match getSessionByUsername reg u with
  | none => (OfferOutcome.notStreaming, reg)
  | some _ =>
      if readyWithinTimeout then (OfferOutcome.answered, reg)
      else (OfferOutcome.streamNotReady, reg)

/-- C7: listener join semantics.  A join for a username with no
registered session fails immediately with the "not streaming" outcome,
and the outcome does not depend on the ready signal at all (no
waiting); a join for an existing session whose ready signal never
arrives within the bounded wait fails with the "stream not ready"
outcome; the configured bound is 15 seconds; and in every case the
broadcaster's session registry is left untouched. -/
theorem c7_listener_join (reg : List SessionEntry) (u : String) :
    (getSessionByUsername reg u = none →
      ∀ r, listenerOffer reg u r = (OfferOutcome.notStreaming, reg)) ∧
    (∀ r r', getSessionByUsername reg u = none →
      (listenerOffer reg u r).1 = (listenerOffer reg u r').1) ∧
    (∀ s, getSessionByUsername reg u = some s →
      listenerOffer reg u false = (OfferOutcome.streamNotReady, reg)) ∧
    (∀ r, (listenerOffer reg u r).2 = reg) ∧
    listenerOfferTimeoutSeconds = 15 := by
  refine ⟨?_, ?_, ?_, ?_, rfl⟩
  · intro hfind r
    unfold listenerOffer
    rw [hfind]
  · intro r r' hfind
    unfold listenerOffer
    rw [hfind]
  · intro s hfind
    unfold listenerOffer
    rw [hfind]
    rfl
  · intro r
    unfold listenerOffer
    cases hfind : getSessionByUsername reg u with
    | none => rfl
    | some s => cases r <;> rfl

/-- C7 (witness): the join-semantics theorem applied to the empty
registry ("not streaming") and to a one-session registry whose ready
signal never fires ("stream not ready"). -/
theorem c7_listener_join_witness :
    listenerOffer [] "bob" true = (OfferOutcome.notStreaming, []) ∧
    listenerOffer [⟨3, "carol"⟩] "carol" false =
      (OfferOutcome.streamNotReady, [⟨3, "carol"⟩]) :=
  ⟨(c7_listener_join [] "bob").1 rfl true,
    (c7_listener_join [⟨3, "carol"⟩] "carol").2.2.1 ⟨3, "carol"⟩ (by decide)⟩
